import Mathlib

/-!
Shallow embedding of NewLang's hybrid array (src/array.c, with the earlier
draft in src/unnamed/part_001), together with proofs about the claims of the
specification.

Modelling conventions:
* `Value` (an opaque element type in the source) is modelled as `Nat`.
* The two storage blocks (`static_elems`, the flexible array member of
  `static_capacity` slots, and `dynamic_elems`, the heap block of
  `dynamic_capacity` slots) are modelled as `List Value` whose length equals
  the corresponding capacity; freshly allocated (uninitialized) slots are
  modelled as holding `0`, and nothing below ever reads such a slot.
* A C `assert` failure and any out-of-bounds access (undefined behaviour) are
  modelled by returning `none`; operations that can abort this way return
  `Option`.
* `size_t` is modelled by `Nat`.  The only place where machine wrap-around is
  observable in the source is the decrement `--x` applied to `0` inside
  `remove_last`; `sub1` models that decrement, wrapping to `2^64 - 1` exactly
  as a `size_t` does.  (Increments and capacity doubling are modelled with
  exact `Nat` arithmetic; their operands stay far below `2^64` on every
  reachable state of the C program.)
* `realloc(p, n)` preserves the first `min(oldsize, n)` elements and leaves
  the rest of the new block uninitialized; `reallocList` models this.
-/

namespace NewLang

abbrev Value := Nat

/-- Width of size_t: 2^64. -/
def W : Nat := 2 ^ 64

/-- The size_t decrement x-1, wrapping to 2^64 - 1 when x = 0 (as in the
source's two occurrences of a post-guard-free decrement). -/
def sub1 (n : Nat) : Nat := if n = 0 then W - 1 else n - 1

/-- DYNAMIC_SIZE_MIN from src/array.c: the minimum size of the dynamic half
after the initial allocation. -/
def DYNAMIC_SIZE_MIN : Nat := 16

/-- struct Array from src/array.c: the dynamic (heap) half followed by the
static (inline) half.  The pointer field dynamic_elems is modelled by the
block's contents; see PArr below for the variant that also tracks the
pointer's identity. -/
structure Arr where
  dynamic_length : Nat
  dynamic_capacity : Nat
  dynamic_elems : List Value
  static_length : Nat
  static_capacity : Nat
  static_elems : List Value
deriving DecidableEq

/-- Model of realloc on a block's contents: the first min(old length, n)
elements are preserved, the remainder of the new block is uninitialized
(modelled as 0). -/
def reallocList (l : List Value) (n : Nat) : List Value :=
  l.take n ++ List.replicate (n - l.length) 0

/-- resize_dynamic from src/array.c: asserts dynamic_length <= newlen, then
reallocs the heap block and sets dynamic_capacity = newlen.  The assert
failure is modelled as none. -/
def resize_dynamic (a : Arr) (newlen : Nat) : Option Arr :=
  if a.dynamic_length ≤ newlen then
    some { a with dynamic_elems := reallocList a.dynamic_elems newlen,
                  dynamic_capacity := newlen }
  else none

/-- resize_dynamic from src/unnamed/part_001: identical to the one in
src/array.c except that its assert reads newlen <= dynamic_length. -/
def resize_dynamic1 (a : Arr) (newlen : Nat) : Option Arr :=
  if newlen ≤ a.dynamic_length then
    some { a with dynamic_elems := reallocList a.dynamic_elems newlen,
                  dynamic_capacity := newlen }
  else none

/-- length from src/array.c: static_length + dynamic_length. -/
def length (a : Arr) : Nat := a.static_length + a.dynamic_length

/-- reserve from src/array.c (the part_001 draft is identical up to the
spelling of the early-return guards). -/
def reserve (a : Arr) (capacity : Nat) : Option Arr :=
  if capacity ≤ length a then some a
  else if capacity ≤ a.static_capacity then some a
  else resize_dynamic a (capacity - a.static_capacity)

/-- index from src/array.c: asserts i < length(a) (modelled none), then
resolves logical index i to the static slot i when i < static_length and to
the dynamic slot i - static_length otherwise.  The returned pointer is
modelled by the value it points at; out-of-bounds reads yield none. -/
def index (a : Arr) (i : Nat) : Option Value :=
  if i < length a then
    if i < a.static_length then a.static_elems[i]?
    else a.dynamic_elems[i - a.static_length]?
  else none

/-- Writing through the pointer that index(a, i) returns (used by the swap in
unordered_remove).  Mirrors index's slot resolution. -/
def setAt (a : Arr) (i : Nat) (v : Value) : Arr :=
  if i < a.static_length then
    { a with static_elems := a.static_elems.set i v }
  else
    { a with dynamic_elems := a.dynamic_elems.set (i - a.static_length) v }

/-- append from src/array.c: inline fastpath, then heap fastpath, then grow
the heap block (to DYNAMIC_SIZE_MIN when empty, else double it) and store.
The undefined identifier reserve_dynamic in the source is read as
resize_dynamic, the only resize helper defined in the repository. -/
def append (a : Arr) (v : Value) : Option Arr :=
  if a.static_length < a.static_capacity then
    some { a with static_elems := a.static_elems.set a.static_length v,
                  static_length := a.static_length + 1 }
  else if a.dynamic_length < a.dynamic_capacity then
    some { a with dynamic_elems := a.dynamic_elems.set a.dynamic_length v,
                  dynamic_length := a.dynamic_length + 1 }
  else
    (if a.dynamic_capacity = 0 then resize_dynamic a DYNAMIC_SIZE_MIN
     else resize_dynamic a (a.dynamic_capacity * 2)).map fun b =>
      { b with dynamic_elems := b.dynamic_elems.set b.dynamic_length v,
               dynamic_length := b.dynamic_length + 1 }

/-- remove_last from src/array.c.  Note the source performs
static_elems[--static_length] with no emptiness check: the decrement is the
wrapping sub1 and the subsequent out-of-bounds read is modelled as none.
The shift dynamic_capacity >> 2 is division by 4, >> 1 is division by 2. -/
def remove_last (a : Arr) : Option (Value × Arr) :=
  if a.dynamic_length = 0 then
    (a.static_elems[sub1 a.static_length]?).map fun v =>
      (v, { a with static_length := sub1 a.static_length })
  else
    (a.dynamic_elems[sub1 a.dynamic_length]?).bind fun ret =>
      if sub1 a.dynamic_length = 0 then
        (resize_dynamic { a with dynamic_length := sub1 a.dynamic_length }
          0).map fun c => (ret, c)
      else if sub1 a.dynamic_length ≤ a.dynamic_capacity / 4 ∧
              DYNAMIC_SIZE_MIN ≤ sub1 a.dynamic_length then
        (resize_dynamic { a with dynamic_length := sub1 a.dynamic_length }
          (a.dynamic_capacity / 2)).map fun c => (ret, c)
      else some (ret, { a with dynamic_length := sub1 a.dynamic_length })

/-- unordered_remove from src/array.c: swap the element at logical index i
with the last logical element (index length(a) - 1, a size_t subtraction),
then remove_last.  The body's undeclared i is the index parameter. -/
def unordered_remove (a : Arr) (i : Nat) : Option (Value × Arr) :=
  (index a i).bind fun x =>
    (index a (sub1 (length a))).bind fun y =>
      remove_last (setAt (setAt a i y) (sub1 (length a)) x)

/-- init from src/array.c: zeroes both lengths and the heap half;
static_capacity was set by the caller's allocation stub and static_elems is
left undefined (modelled as zero-filled junk of that capacity). -/
def init (static_capacity : Nat) : Arr :=
  { dynamic_length := 0, dynamic_capacity := 0, dynamic_elems := [],
    static_length := 0, static_capacity := static_capacity,
    static_elems := List.replicate static_capacity 0 }

/-- memcpy(dst + off, src, ...) on block contents, as used by normalize. -/
def memcpyAt (dst : List Value) (off : Nat) (src : List Value) : List Value :=
  dst.take off ++ src ++ dst.drop (off + src.length)

/-- normalize from src/unnamed/part_001: resize the heap block to hold
everything (via that draft's resize_dynamic1, whose assert reads
newlen <= dynamic_length), copy the live inline elements after the live heap
elements, and move the inline count into the heap count. -/
def normalize (a : Arr) : Option Arr :=
  (resize_dynamic1 a (a.dynamic_length + a.static_length)).map fun b =>
    { b with
        dynamic_elems :=
          memcpyAt b.dynamic_elems b.dynamic_length
            (a.static_elems.take a.static_length),
        dynamic_length := b.dynamic_length + a.static_length,
        static_length := 0 }

/-- struct Array with the identity of the dynamic_elems pointer made explicit
(an allocation id, 0 playing the role of NULL), used to state the
non-aliasing property of pcopy. -/
structure PArr where
  dynamic_length : Nat
  dynamic_capacity : Nat
  dynamic_elems_ptr : Nat
  dynamic_elems : List Value
  static_length : Nat
  static_capacity : Nat
  static_elems : List Value
deriving DecidableEq

/-- pcopy from src/array.c, applied to a structurally (bitwise) copied
struct: if a heap block is present, malloc a new block (fresh is the address
malloc returns) and memcpy all dynamic_capacity slots into it — the list of
contents is therefore unchanged while the pointer moves to fresh — then
invoke the per-element post-copy hook (the recursive pcopy of the element
type) on every live inline element and then on every live heap element.  The
second component returned is the sequence of elements the hook is invoked
on, in invocation order. -/
def pcopy (a : PArr) (fresh : Nat) : PArr × List Value :=
  if a.dynamic_elems_ptr ≠ 0 then
    ({ a with dynamic_elems_ptr := fresh },
     a.static_elems.take a.static_length ++
       a.dynamic_elems.take a.dynamic_length)
  else
    (a, a.static_elems.take a.static_length ++
        a.dynamic_elems.take a.dynamic_length)

/-- One removal operation of the kind quantified over in the spec's testable
property 1: remove_last, or unordered_remove at an index. -/
inductive RemOp where
  | last : RemOp
  | unord (i : Nat) : RemOp
deriving DecidableEq

def applyRem (a : Arr) : RemOp → Option (Value × Arr)
  | RemOp.last => remove_last a
  | RemOp.unord i => unordered_remove a i

/-- Run a sequence of appends. -/
def runAppends (a : Arr) : List Value → Option Arr
  | [] => some a
  | v :: vs => (append a v).bind fun a2 => runAppends a2 vs

/-- Run a sequence of removals, collecting the removed values in order. -/
def runRemovals (a : Arr) : List RemOp → Option (Arr × List Value)
  | [] => some (a, [])
  | op :: ops =>
    (applyRem a op).bind fun p =>
      (runRemovals p.2 ops).map fun q => (q.1, p.1 :: q.2)

/-- The logical element sequence of an array: live inline elements followed
by live heap elements (invariants 1 and 2 of the spec). -/
def toList (a : Arr) : List Value :=
  a.static_elems.take a.static_length ++ a.dynamic_elems.take a.dynamic_length

/-- Structural well-formedness: each block has exactly capacity many slots
and each length is at most its capacity. -/
abbrev WF (a : Arr) : Prop :=
  a.static_elems.length = a.static_capacity ∧
  a.dynamic_elems.length = a.dynamic_capacity ∧
  a.static_length ≤ a.static_capacity ∧
  a.dynamic_length ≤ a.dynamic_capacity

/-- The inductive invariant of every reachable array state: structural
well-formedness, the fill-order invariant (the heap half is only populated
while the inline half is full — invariant 5 of the spec), and the fact that
the caller-chosen static_capacity is a size_t. -/
abbrev Inv (a : Arr) : Prop :=
  WF a ∧ (0 < a.dynamic_length → a.static_length = a.static_capacity) ∧
  a.static_capacity < W

/-- The states reachable by the public operations from a freshly initialized
array (operations that abort produce no state). -/
inductive Reachable : Arr → Prop where
  | ofInit (sc : Nat) (h : sc < W) : Reachable (init sc)
  | ofAppend (a a2 : Arr) (v : Value) (ha : Reachable a)
      (h : append a v = some a2) : Reachable a2
  | ofRemoveLast (a a2 : Arr) (v : Value) (ha : Reachable a)
      (h : remove_last a = some (v, a2)) : Reachable a2
  | ofUnorderedRemove (a a2 : Arr) (i : Nat) (v : Value) (ha : Reachable a)
      (h : unordered_remove a i = some (v, a2)) : Reachable a2
  | ofReserve (a a2 : Arr) (c : Nat) (ha : Reachable a)
      (h : reserve a c = some a2) : Reachable a2
  | ofNormalize (a a2 : Arr) (ha : Reachable a)
      (h : normalize a = some a2) : Reachable a2

/-! ### List and multiset helper lemmas -/

lemma length_reallocList (l : List Value) (n : Nat) :
    (reallocList l n).length = n := by
  unfold reallocList
  rw [List.length_append, List.length_take, List.length_replicate]
  omega

lemma take_reallocList (l : List Value) (n k : Nat) (h1 : k ≤ n)
    (h2 : k ≤ l.length) : (reallocList l n).take k = l.take k := by
  unfold reallocList
  rw [List.take_append_of_le_length (by rw [List.length_take]; omega),
    List.take_take]
  congr 1
  omega

lemma getElem?_reallocList (l : List Value) (n i : Nat) (h1 : i < n)
    (h2 : i < l.length) : (reallocList l n)[i]? = l[i]? := by
  unfold reallocList
  rw [List.getElem?_append_left (by rw [List.length_take]; omega),
    List.getElem?_take_of_lt h1]

lemma sub1_pos (n : Nat) (h : 0 < n) : sub1 n = n - 1 := by
  unfold sub1
  rw [if_neg (by omega)]

lemma lt_length_of_getElem?_some {l : List Value} {i : Nat} {v : Value}
    (h : l[i]? = some v) : i < l.length := by
  rcases List.getElem?_eq_some_iff.mp h with ⟨h2, _⟩
  exact h2

lemma exists_getElem?_some {l : List Value} {i : Nat} (h : i < l.length) :
    ∃ v, l[i]? = some v :=
  ⟨l[i], by rw [List.getElem?_eq_some_iff]; exact ⟨h, rfl⟩⟩

lemma take_succ_some {l : List Value} {n : Nat} {v : Value}
    (h : l[n]? = some v) : l.take (n + 1) = l.take n ++ [v] := by
  rw [List.take_succ, h]
  rfl

lemma take_set_succ {l : List Value} {n : Nat} {v : Value} (h : n < l.length) :
    (l.set n v).take (n + 1) = l.take n ++ [v] := by
  rw [take_succ_some (by rw [List.getElem?_set_self h]), List.set_take]
  congr 1
  apply List.set_eq_of_length_le
  rw [List.length_take]
  omega

lemma ofList_cons (a : Value) (l : List Value) :
    Multiset.ofList (a :: l) = a ::ₘ Multiset.ofList l := rfl

lemma ofList_concat (xs : List Value) (v : Value) :
    Multiset.ofList (xs ++ [v]) = v ::ₘ Multiset.ofList xs := by
  induction xs with
  | nil => rfl
  | cons a t ih =>
    show Multiset.ofList (a :: (t ++ [v])) = v ::ₘ Multiset.ofList (a :: t)
    rw [ofList_cons, ih, ofList_cons, Multiset.cons_swap]

lemma ofList_set (l : List Value) (i : Nat) (v w : Value)
    (h : l[i]? = some w) :
    w ::ₘ Multiset.ofList (l.set i v) = v ::ₘ Multiset.ofList l := by
  induction l generalizing i with
  | nil => simp at h
  | cons a t ih =>
    cases i with
    | zero =>
      have ha : a = w := by simpa using h
      subst ha
      rw [List.set_cons_zero, ofList_cons, ofList_cons, Multiset.cons_swap]
    | succ m =>
      have h2 : t[m]? = some w := by simpa using h
      rw [List.set_cons_succ, ofList_cons, ofList_cons, Multiset.cons_swap,
        ih m h2, Multiset.cons_swap]

lemma ofList_swap (l : List Value) (i j : Nat) (x y : Value)
    (hi : l[i]? = some x) (hj : l[j]? = some y) :
    Multiset.ofList ((l.set i y).set j x) = Multiset.ofList l := by
  have hj2 : (l.set i y)[j]? = some y := by
    by_cases hij : i = j
    · subst hij
      rw [List.getElem?_set_self (lt_length_of_getElem?_some hi)]
    · rw [List.getElem?_set_ne hij, hj]
  have e1 := ofList_set (l.set i y) j x y hj2
  have e2 := ofList_set l i y x hi
  have e3 : y ::ₘ Multiset.ofList ((l.set i y).set j x) =
      y ::ₘ Multiset.ofList l := by rw [e1, e2]
  exact (Multiset.cons_inj_right y).mp e3

/-! ### Basic facts about the model -/

lemma toList_length (a : Arr) (h : Inv a) : (toList a).length = length a := by
  obtain ⟨⟨hse, hde, hsl, hdl⟩, _, _⟩ := h
  unfold toList length
  rw [List.length_append, List.length_take, List.length_take]
  omega

lemma toList_init (sc : Nat) : toList (init sc) = [] := by
  unfold toList init
  simp

lemma inv_init (sc : Nat) (h : sc < W) : Inv (init sc) := by
  refine ⟨⟨?_, ?_, ?_, ?_⟩, ?_, h⟩ <;> simp [init]

lemma index_eq_toList (a : Arr) (i : Nat) (h : WF a) (hi : i < length a) :
    index a i = (toList a)[i]? := by
  obtain ⟨hse, hde, hsl, hdl⟩ := h
  have hi' : i < a.static_length + a.dynamic_length := hi
  unfold index toList
  rw [if_pos hi]
  by_cases h2 : i < a.static_length
  · rw [if_pos h2,
      List.getElem?_append_left (by rw [List.length_take]; omega),
      List.getElem?_take_of_lt h2]
  · rw [if_neg h2,
      List.getElem?_append_right (by rw [List.length_take]; omega)]
    have hlen : (a.static_elems.take a.static_length).length =
        a.static_length := by rw [List.length_take]; omega
    rw [hlen, List.getElem?_take_of_lt (by omega)]

lemma length_setAt (a : Arr) (k : Nat) (v : Value) :
    length (setAt a k v) = length a := by
  unfold setAt length
  split <;> rfl

lemma inv_setAt (a : Arr) (k : Nat) (v : Value) (h : Inv a) :
    Inv (setAt a k v) := by
  obtain ⟨⟨hse, hde, hsl, hdl⟩, h5, hw⟩ := h
  unfold setAt
  split <;> exact ⟨⟨by simp [hse], by simp [hde], hsl, hdl⟩, h5, hw⟩

lemma toList_setAt (a : Arr) (k : Nat) (v : Value) (h : WF a)
    (hk : k < length a) : toList (setAt a k v) = (toList a).set k v := by
  obtain ⟨hse, hde, hsl, hdl⟩ := h
  have hk' : k < a.static_length + a.dynamic_length := hk
  have hlen : (a.static_elems.take a.static_length).length =
      a.static_length := by rw [List.length_take]; omega
  unfold setAt toList
  by_cases h2 : k < a.static_length
  · rw [if_pos h2]
    show (a.static_elems.set k v).take a.static_length ++ _ = _
    rw [List.set_take, List.set_append_left k v (by rw [hlen]; omega)]
  · rw [if_neg h2]
    show _ ++ (a.dynamic_elems.set (k - a.static_length) v).take
        a.dynamic_length = _
    rw [List.set_take, List.set_append_right k v (by rw [hlen]; omega), hlen]

/-! ### Behaviour of the operations on invariant-satisfying states -/

lemma append_spec (a : Arr) (v : Value) (h : Inv a) :
    ∃ a2, append a v = some a2 ∧ Inv a2 ∧ toList a2 = toList a ++ [v] := by
  obtain ⟨⟨hse, hde, hsl, hdl⟩, h5, hw⟩ := h
  unfold append
  by_cases h1 : a.static_length < a.static_capacity
  · have hd0 : a.dynamic_length = 0 := by
      by_contra hne
      exact absurd (h5 (Nat.pos_of_ne_zero hne)) (by omega)
    rw [if_pos h1]
    refine ⟨_, rfl, ⟨⟨?_, ?_, ?_, ?_⟩, ?_, ?_⟩, ?_⟩
    · simpa using hse
    · simpa using hde
    · show a.static_length + 1 ≤ a.static_capacity
      omega
    · exact hdl
    · intro hdd
      exact absurd (show (0 : Nat) < a.dynamic_length from hdd) (by omega)
    · exact hw
    · show (a.static_elems.set a.static_length v).take (a.static_length + 1)
          ++ a.dynamic_elems.take a.dynamic_length = _
      rw [hd0]
      unfold toList
      rw [hd0]
      simp only [List.take_zero, List.append_nil]
      exact take_set_succ (by omega)
  · rw [if_neg h1]
    have hsc : a.static_length = a.static_capacity := by omega
    by_cases h2 : a.dynamic_length < a.dynamic_capacity
    · rw [if_pos h2]
      refine ⟨_, rfl, ⟨⟨?_, ?_, ?_, ?_⟩, ?_, ?_⟩, ?_⟩
      · simpa using hse
      · simpa using hde
      · exact hsl
      · show a.dynamic_length + 1 ≤ a.dynamic_capacity
        omega
      · intro _
        exact hsc
      · exact hw
      · show a.static_elems.take a.static_length ++
            (a.dynamic_elems.set a.dynamic_length v).take
              (a.dynamic_length + 1) = _
        unfold toList
        rw [take_set_succ (by omega), ← List.append_assoc]
    · rw [if_neg h2]
      have hfull : a.dynamic_length = a.dynamic_capacity := by omega
      by_cases h3 : a.dynamic_capacity = 0
      · rw [if_pos h3]
        unfold resize_dynamic
        rw [if_pos (by omega)]
        refine ⟨{ a with
            dynamic_capacity := DYNAMIC_SIZE_MIN,
            dynamic_elems := (reallocList a.dynamic_elems
              DYNAMIC_SIZE_MIN).set a.dynamic_length v,
            dynamic_length := a.dynamic_length + 1 },
          rfl, ⟨⟨?_, ?_, ?_, ?_⟩, ?_, ?_⟩, ?_⟩
        · simpa using hse
        · show ((reallocList a.dynamic_elems DYNAMIC_SIZE_MIN).set
              a.dynamic_length v).length = DYNAMIC_SIZE_MIN
          rw [List.length_set, length_reallocList]
        · exact hsl
        · show a.dynamic_length + 1 ≤ DYNAMIC_SIZE_MIN
          unfold DYNAMIC_SIZE_MIN
          omega
        · intro _
          exact hsc
        · exact hw
        · show a.static_elems.take a.static_length ++
              ((reallocList a.dynamic_elems DYNAMIC_SIZE_MIN).set
                a.dynamic_length v).take (a.dynamic_length + 1) = _
          unfold toList
          rw [take_set_succ (by rw [length_reallocList]; unfold DYNAMIC_SIZE_MIN; omega),
            take_reallocList _ _ _ (by unfold DYNAMIC_SIZE_MIN; omega) (by omega),
            ← List.append_assoc]
      · rw [if_neg h3]
        unfold resize_dynamic
        rw [if_pos (by omega)]
        refine ⟨{ a with
            dynamic_capacity := a.dynamic_capacity * 2,
            dynamic_elems := (reallocList a.dynamic_elems
              (a.dynamic_capacity * 2)).set a.dynamic_length v,
            dynamic_length := a.dynamic_length + 1 },
          rfl, ⟨⟨?_, ?_, ?_, ?_⟩, ?_, ?_⟩, ?_⟩
        · simpa using hse
        · show ((reallocList a.dynamic_elems (a.dynamic_capacity * 2)).set
              a.dynamic_length v).length = a.dynamic_capacity * 2
          rw [List.length_set, length_reallocList]
        · exact hsl
        · show a.dynamic_length + 1 ≤ a.dynamic_capacity * 2
          omega
        · intro _
          exact hsc
        · exact hw
        · show a.static_elems.take a.static_length ++
              ((reallocList a.dynamic_elems (a.dynamic_capacity * 2)).set
                a.dynamic_length v).take (a.dynamic_length + 1) = _
          unfold toList
          rw [take_set_succ (by rw [length_reallocList]; omega),
            take_reallocList _ _ _ (by omega) (by omega),
            ← List.append_assoc]

lemma resize_dynamic_eq (a : Arr) (newlen : Nat)
    (h : a.dynamic_length ≤ newlen) :
    resize_dynamic a newlen =
      some { a with dynamic_elems := reallocList a.dynamic_elems newlen,
                    dynamic_capacity := newlen } := by
  unfold resize_dynamic
  rw [if_pos h]

lemma remove_last_spec (a : Arr) (v : Value) (a2 : Arr) (h : Inv a)
    (hr : remove_last a = some (v, a2)) :
    Inv a2 ∧ toList a = toList a2 ++ [v] := by
  obtain ⟨⟨hse, hde, hsl, hdl⟩, h5, hw⟩ := h
  unfold remove_last at hr
  by_cases hd : a.dynamic_length = 0
  · rw [if_pos hd] at hr
    by_cases hs : a.static_length = 0
    · rw [hs, List.getElem?_eq_none
        (by unfold sub1; rw [if_pos rfl]; omega)] at hr
      simp at hr
    · have hpos : 0 < a.static_length := Nat.pos_of_ne_zero hs
      rw [sub1_pos _ hpos] at hr
      obtain ⟨w, hwv⟩ := exists_getElem?_some
        (show a.static_length - 1 < a.static_elems.length by omega)
      rw [hwv, Option.map_some', Option.some.injEq, Prod.mk.injEq] at hr
      obtain ⟨hv, ha2⟩ := hr
      subst hv
      subst ha2
      constructor
      · refine ⟨⟨hse, hde, ?_, hdl⟩, ?_, hw⟩
        · show a.static_length - 1 ≤ a.static_capacity
          omega
        · intro hdd
          have hdd2 : 0 < a.dynamic_length := hdd
          show a.static_length - 1 = a.static_capacity
          omega
      · show a.static_elems.take a.static_length ++
            a.dynamic_elems.take a.dynamic_length =
            a.static_elems.take (a.static_length - 1) ++
              a.dynamic_elems.take a.dynamic_length ++ [w]
        rw [hd]
        simp only [List.take_zero, List.append_nil]
        rw [← take_succ_some hwv]
        congr 1
        omega
  · have hpos : 0 < a.dynamic_length := Nat.pos_of_ne_zero hd
    rw [if_neg hd, sub1_pos _ hpos] at hr
    obtain ⟨w, hwv⟩ := exists_getElem?_some
      (show a.dynamic_length - 1 < a.dynamic_elems.length by omega)
    rw [hwv, Option.some_bind] at hr
    by_cases hz : a.dynamic_length - 1 = 0
    · rw [if_pos hz, resize_dynamic_eq
        { a with dynamic_length := a.dynamic_length - 1 } 0
        (by show a.dynamic_length - 1 ≤ 0; omega),
        Option.map_some', Option.some.injEq, Prod.mk.injEq] at hr
      obtain ⟨hv, ha2⟩ := hr
      subst hv
      subst ha2
      constructor
      · refine ⟨⟨hse, ?_, hsl, ?_⟩, ?_, hw⟩
        · show (reallocList a.dynamic_elems 0).length = 0
          rw [length_reallocList]
        · show a.dynamic_length - 1 ≤ 0
          omega
        · intro hdd
          have hdd2 : 0 < a.dynamic_length - 1 := hdd
          show a.static_length = a.static_capacity
          omega
      · show a.static_elems.take a.static_length ++
            a.dynamic_elems.take a.dynamic_length =
            a.static_elems.take a.static_length ++
              (reallocList a.dynamic_elems 0).take (a.dynamic_length - 1)
              ++ [w]
        have hre : reallocList a.dynamic_elems 0 = [] := by
          unfold reallocList
          simp
        rw [hre, List.take_nil, List.append_nil]
        congr 1
        rw [hz] at hwv
        have ht := take_succ_some hwv
        simp only [List.take_zero, List.nil_append, Nat.zero_add] at ht
        have hd1 : a.dynamic_length = 1 := by omega
        rw [hd1, ht]
    · rw [if_neg hz] at hr
      by_cases hc : a.dynamic_length - 1 ≤ a.dynamic_capacity / 4 ∧
          DYNAMIC_SIZE_MIN ≤ a.dynamic_length - 1
      · rw [if_pos hc, resize_dynamic_eq
          { a with dynamic_length := a.dynamic_length - 1 }
          (a.dynamic_capacity / 2)
          (by show a.dynamic_length - 1 ≤ a.dynamic_capacity / 2; omega),
          Option.map_some', Option.some.injEq, Prod.mk.injEq] at hr
        obtain ⟨hv, ha2⟩ := hr
        subst hv
        subst ha2
        constructor
        · refine ⟨⟨hse, ?_, hsl, ?_⟩, ?_, hw⟩
          · show (reallocList a.dynamic_elems
                (a.dynamic_capacity / 2)).length = a.dynamic_capacity / 2
            rw [length_reallocList]
          · show a.dynamic_length - 1 ≤ a.dynamic_capacity / 2
            omega
          · intro hdd
            show a.static_length = a.static_capacity
            exact h5 hpos
        · show a.static_elems.take a.static_length ++
              a.dynamic_elems.take a.dynamic_length =
              a.static_elems.take a.static_length ++
                (reallocList a.dynamic_elems
                  (a.dynamic_capacity / 2)).take (a.dynamic_length - 1)
                ++ [w]
          rw [take_reallocList _ _ _ (by omega) (by omega),
            List.append_assoc]
          congr 1
          rw [← take_succ_some hwv]
          congr 1
          omega
      · rw [if_neg hc, Option.some.injEq, Prod.mk.injEq] at hr
        obtain ⟨hv, ha2⟩ := hr
        subst hv
        subst ha2
        constructor
        · refine ⟨⟨hse, hde, hsl, ?_⟩, ?_, hw⟩
          · show a.dynamic_length - 1 ≤ a.dynamic_capacity
            omega
          · intro hdd
            show a.static_length = a.static_capacity
            exact h5 hpos
        · show a.static_elems.take a.static_length ++
              a.dynamic_elems.take a.dynamic_length =
              a.static_elems.take a.static_length ++
                a.dynamic_elems.take (a.dynamic_length - 1) ++ [w]
          rw [List.append_assoc]
          congr 1
          rw [← take_succ_some hwv]
          congr 1
          omega

lemma unordered_remove_spec (a : Arr) (i : Nat) (v : Value) (a2 : Arr)
    (h : Inv a) (hr : unordered_remove a i = some (v, a2)) :
    Inv a2 ∧
    Multiset.ofList (toList a) = v ::ₘ Multiset.ofList (toList a2) ∧
    (toList a).length = (toList a2).length + 1 := by
  have hInv := h
  obtain ⟨⟨hse, hde, hsl, hdl⟩, h5, hw⟩ := h
  unfold unordered_remove at hr
  cases hx : index a i with
  | none =>
    rw [hx, Option.none_bind] at hr
    simp at hr
  | some x =>
    rw [hx, Option.some_bind] at hr
    cases hy : index a (sub1 (length a)) with
    | none =>
      rw [hy, Option.none_bind] at hr
      simp at hr
    | some y =>
      rw [hy, Option.some_bind] at hr
      have hi : i < length a := by
        by_contra hni
        unfold index at hx
        rw [if_neg hni] at hx
        cases hx
      have hlenpos : 0 < length a := by omega
      have hjlt : sub1 (length a) < length a := by
        rw [sub1_pos _ hlenpos]
        omega
      have hxl : (toList a)[i]? = some x := by
        rw [← index_eq_toList a i ⟨hse, hde, hsl, hdl⟩ hi]
        exact hx
      have hyl : (toList a)[sub1 (length a)]? = some y := by
        rw [← index_eq_toList a _ ⟨hse, hde, hsl, hdl⟩ hjlt]
        exact hy
      have hInv1 : Inv (setAt (setAt a i y) (sub1 (length a)) x) :=
        inv_setAt _ _ _ (inv_setAt _ _ _ hInv)
      have hT1 : toList (setAt (setAt a i y) (sub1 (length a)) x) =
          ((toList a).set i y).set (sub1 (length a)) x := by
        rw [toList_setAt (setAt a i y) _ x (inv_setAt a i y hInv).1
            (by rw [length_setAt]; exact hjlt),
          toList_setAt a i y ⟨hse, hde, hsl, hdl⟩ hi]
      obtain ⟨hI2, hT2⟩ := remove_last_spec _ v a2 hInv1 hr
      rw [hT1] at hT2
      have hswap := ofList_swap (toList a) i (sub1 (length a)) x y hxl hyl
      rw [hT2, ofList_concat] at hswap
      have hlen2 : (((toList a).set i y).set (sub1 (length a)) x).length =
          (toList a).length := by simp
      rw [hT2] at hlen2
      refine ⟨hI2, hswap.symm, ?_⟩
      rw [List.length_append] at hlen2
      simpa using hlen2.symm

lemma remove_last_total (a : Arr) (h : Inv a) (hd : 0 < a.dynamic_length) :
    ∃ p, remove_last a = some p := by
  obtain ⟨⟨hse, hde, hsl, hdl⟩, h5, hw⟩ := h
  unfold remove_last
  rw [if_neg (by omega), sub1_pos _ hd]
  obtain ⟨w, hwv⟩ := exists_getElem?_some
    (show a.dynamic_length - 1 < a.dynamic_elems.length by omega)
  rw [hwv, Option.some_bind]
  by_cases hz : a.dynamic_length - 1 = 0
  · rw [if_pos hz, resize_dynamic_eq
      { a with dynamic_length := a.dynamic_length - 1 } 0
      (by show a.dynamic_length - 1 ≤ 0; omega), Option.map_some']
    exact ⟨_, rfl⟩
  · rw [if_neg hz]
    by_cases hc : a.dynamic_length - 1 ≤ a.dynamic_capacity / 4 ∧
        DYNAMIC_SIZE_MIN ≤ a.dynamic_length - 1
    · rw [if_pos hc, resize_dynamic_eq
        { a with dynamic_length := a.dynamic_length - 1 }
        (a.dynamic_capacity / 2)
        (by show a.dynamic_length - 1 ≤ a.dynamic_capacity / 2; omega),
        Option.map_some']
      exact ⟨_, rfl⟩
    · rw [if_neg hc]
      exact ⟨_, rfl⟩

lemma reserve_spec (a : Arr) (c : Nat) (h : Inv a) :
    ∃ a2, reserve a c = some a2 ∧ Inv a2 ∧
      a2.static_length = a.static_length ∧
      a2.dynamic_length = a.dynamic_length ∧
      a2.static_capacity = a.static_capacity ∧
      a2.static_elems = a.static_elems ∧
      (∀ i, index a2 i = index a i) ∧
      ((c ≤ length a ∨ c ≤ a.static_capacity) → a2 = a) := by
  obtain ⟨⟨hse, hde, hsl, hdl⟩, h5, hw⟩ := h
  unfold reserve
  by_cases h1 : c ≤ length a
  · rw [if_pos h1]
    exact ⟨a, rfl, ⟨⟨hse, hde, hsl, hdl⟩, h5, hw⟩, rfl, rfl, rfl, rfl,
      fun _ => rfl, fun _ => rfl⟩
  · rw [if_neg h1]
    by_cases h2 : c ≤ a.static_capacity
    · rw [if_pos h2]
      exact ⟨a, rfl, ⟨⟨hse, hde, hsl, hdl⟩, h5, hw⟩, rfl, rfl, rfl, rfl,
        fun _ => rfl, fun _ => rfl⟩
    · rw [if_neg h2]
      have hlen : length a = a.static_length + a.dynamic_length := rfl
      have hkey : a.dynamic_length ≤ c - a.static_capacity := by
        by_cases hd0 : a.dynamic_length = 0
        · omega
        · have := h5 (Nat.pos_of_ne_zero hd0)
          omega
      rw [resize_dynamic_eq a _ hkey]
      refine ⟨_, rfl, ⟨⟨hse, ?_, hsl, hkey⟩, h5, hw⟩, rfl, rfl, rfl, rfl,
        ?_, ?_⟩
      · show (reallocList a.dynamic_elems (c - a.static_capacity)).length =
            c - a.static_capacity
        rw [length_reallocList]
      · intro i
        show (if i < length a then
                if i < a.static_length then a.static_elems[i]?
                else (reallocList a.dynamic_elems
                  (c - a.static_capacity))[i - a.static_length]?
              else none) =
            (if i < length a then
                if i < a.static_length then a.static_elems[i]?
                else a.dynamic_elems[i - a.static_length]?
              else none)
        by_cases hil : i < length a
        · rw [if_pos hil, if_pos hil]
          by_cases his : i < a.static_length
          · rw [if_pos his, if_pos his]
          · rw [if_neg his, if_neg his]
            exact getElem?_reallocList _ _ _ (by omega) (by omega)
        · rw [if_neg hil, if_neg hil]
      · intro hor
        exact absurd hor (by omega)

lemma normalize_fields (a a2 : Arr) (hn : normalize a = some a2) :
    a2.static_length = 0 ∧ a2.static_capacity = a.static_capacity ∧
    a.static_length = 0 := by
  unfold normalize resize_dynamic1 at hn
  by_cases hg : a.dynamic_length + a.static_length ≤ a.dynamic_length
  · rw [if_pos hg, Option.map_some', Option.some.injEq] at hn
    subst hn
    exact ⟨rfl, rfl, by omega⟩
  · rw [if_neg hg] at hn
    simp at hn

lemma normalize_inv (a a2 : Arr) (h : Inv a) (hn : normalize a = some a2) :
    Inv a2 := by
  obtain ⟨⟨hse, hde, hsl, hdl⟩, h5, hw⟩ := h
  obtain ⟨-, -, hs0⟩ := normalize_fields a a2 hn
  unfold normalize resize_dynamic1 at hn
  rw [if_pos (by omega), Option.map_some', Option.some.injEq] at hn
  subst hn
  refine ⟨⟨hse, ?_, ?_, ?_⟩, ?_, hw⟩
  · show (memcpyAt (reallocList a.dynamic_elems
        (a.dynamic_length + a.static_length)) a.dynamic_length
        (a.static_elems.take a.static_length)).length =
      a.dynamic_length + a.static_length
    rw [hs0]
    unfold memcpyAt
    simp only [List.take_zero, List.append_nil, List.length_nil,
      Nat.add_zero, List.take_append_drop]
    rw [length_reallocList]
  · show (0 : Nat) ≤ a.static_capacity
    omega
  · show a.dynamic_length + a.static_length ≤
        a.dynamic_length + a.static_length
    omega
  · intro hdd
    have hdd2 : 0 < a.dynamic_length + a.static_length := hdd
    have hsc0 : a.static_length = a.static_capacity :=
      h5 (by omega)
    show (0 : Nat) = a.static_capacity
    omega

lemma applyRem_spec (a : Arr) (op : RemOp) (v : Value) (a2 : Arr)
    (h : Inv a) (hr : applyRem a op = some (v, a2)) :
    Inv a2 ∧
    Multiset.ofList (toList a) = v ::ₘ Multiset.ofList (toList a2) ∧
    (toList a).length = (toList a2).length + 1 := by
  cases op with
  | last =>
    obtain ⟨hI, hT⟩ := remove_last_spec a v a2 h hr
    refine ⟨hI, ?_, ?_⟩
    · rw [hT, ofList_concat]
    · rw [hT, List.length_append]
      simp
  | unord i => exact unordered_remove_spec a i v a2 h hr

lemma runAppends_spec (vs : List Value) (a : Arr) (h : Inv a) :
    ∃ a2, runAppends a vs = some a2 ∧ Inv a2 ∧
      toList a2 = toList a ++ vs := by
  induction vs generalizing a with
  | nil => exact ⟨a, rfl, h, by simp⟩
  | cons v vs ih =>
    obtain ⟨a1, e1, h1, t1⟩ := append_spec a v h
    obtain ⟨a2, e2, h2, t2⟩ := ih a1 h1
    refine ⟨a2, ?_, h2, ?_⟩
    · show (append a v).bind _ = some a2
      rw [e1, Option.some_bind]
      exact e2
    · rw [t2, t1, List.append_assoc, List.singleton_append]

lemma runRemovals_spec (ops : List RemOp) (a a2 : Arr) (rs : List Value)
    (h : Inv a) (hr : runRemovals a ops = some (a2, rs)) :
    Inv a2 ∧
    Multiset.ofList (toList a) =
      Multiset.ofList rs + Multiset.ofList (toList a2) ∧
    (toList a).length = ops.length + (toList a2).length := by
  induction ops generalizing a a2 rs with
  | nil =>
    rw [show runRemovals a [] = some (a, []) from rfl,
      Option.some.injEq, Prod.mk.injEq] at hr
    obtain ⟨ha, hrs⟩ := hr
    subst ha
    subst hrs
    refine ⟨h, ?_, by simp⟩
    rw [show Multiset.ofList ([] : List Value) = 0 from rfl, zero_add]
  | cons op ops ih =>
    have hr2 : (applyRem a op).bind (fun p =>
        (runRemovals p.2 ops).map fun q => (q.1, p.1 :: q.2)) =
        some (a2, rs) := hr
    cases hp : applyRem a op with
    | none =>
      rw [hp, Option.none_bind] at hr2
      simp at hr2
    | some p =>
      rw [hp, Option.some_bind] at hr2
      cases hq : runRemovals p.2 ops with
      | none =>
        rw [hq] at hr2
        simp at hr2
      | some q =>
        rw [hq, Option.map_some', Option.some.injEq, Prod.mk.injEq] at hr2
        obtain ⟨hq1, hq2⟩ := hr2
        obtain ⟨hIp, hMp, hLp⟩ := applyRem_spec a op p.1 p.2 h (by rw [hp])
        obtain ⟨hIq, hMq, hLq⟩ := ih p.2 q.1 q.2 hIp (by rw [hq])
        subst hq1
        subst hq2
        refine ⟨hIq, ?_, ?_⟩
        · rw [hMp, hMq, ofList_cons, Multiset.cons_add]
        · rw [hLp, hLq]
          simp [List.length_cons]
          omega

lemma reachable_inv (a : Arr) (h : Reachable a) : Inv a := by
  induction h with
  | ofInit sc hsc => exact inv_init sc hsc
  | ofAppend b b2 v hb hsome ih =>
    obtain ⟨x, e, hI, -⟩ := append_spec b v ih
    rw [hsome, Option.some.injEq] at e
    subst e
    exact hI
  | ofRemoveLast b b2 v hb hsome ih =>
    exact (remove_last_spec b v b2 ih hsome).1
  | ofUnorderedRemove b b2 i v hb hsome ih =>
    exact (unordered_remove_spec b i v b2 ih hsome).1
  | ofReserve b b2 c hb hsome ih =>
    obtain ⟨x, e, hI, -, -, -, -, -, -⟩ := reserve_spec b c ih
    rw [hsome, Option.some.injEq] at e
    subst e
    exact hI
  | ofNormalize b b2 hb hsome ih => exact normalize_inv b b2 ih hsome

/-! ### Claim theorems -/

/-- Claim C1: for every well-formed array a and index i, index(a, i) signals
the OutOfBounds condition (the failed bounds assert, modelled as none) if
and only if i >= length(a); when i < length(a) it returns the inline slot i
when i < inline_length and the heap slot i - inline_length otherwise, never
clamping to a valid index. -/
theorem index_spec (a : Arr) (i : Nat) (h : WF a) :
    (index a i = none ↔ length a ≤ i) ∧
    (i < a.static_length → index a i = a.static_elems[i]?) ∧
    (a.static_length ≤ i → i < length a →
      index a i = a.dynamic_elems[i - a.static_length]?) := by
  obtain ⟨hse, hde, hsl, hdl⟩ := h
  have hlen : length a = a.static_length + a.dynamic_length := rfl
  refine ⟨⟨?_, ?_⟩, ?_, ?_⟩
  · intro hn
    by_contra hlt
    unfold index at hn
    rw [if_pos (by omega)] at hn
    by_cases his : i < a.static_length
    · rw [if_pos his] at hn
      obtain ⟨w, hw2⟩ := exists_getElem?_some
        (show i < a.static_elems.length by omega)
      rw [hw2] at hn
      simp at hn
    · rw [if_neg his] at hn
      obtain ⟨w, hw2⟩ := exists_getElem?_some
        (show i - a.static_length < a.dynamic_elems.length by omega)
      rw [hw2] at hn
      simp at hn
  · intro hge
    unfold index
    rw [if_neg (by omega)]
  · intro his
    unfold index
    rw [if_pos (by omega), if_pos his]
  · intro his hil
    unfold index
    rw [if_pos hil, if_neg (by omega)]

/-- Witness for C1 at a concrete array: inline [5] (capacity 1), heap
[7, junk] (length 1, capacity 2); logical index 1 resolves to heap slot 0. -/
theorem index_spec_witness :
    (index ⟨1, 2, [7, 0], 1, 1, [5]⟩ 1 = none ↔
      length ⟨1, 2, [7, 0], 1, 1, [5]⟩ ≤ 1) ∧
    (1 < (⟨1, 2, [7, 0], 1, 1, [5]⟩ : Arr).static_length →
      index ⟨1, 2, [7, 0], 1, 1, [5]⟩ 1 =
        (⟨1, 2, [7, 0], 1, 1, [5]⟩ : Arr).static_elems[1]?) ∧
    ((⟨1, 2, [7, 0], 1, 1, [5]⟩ : Arr).static_length ≤ 1 →
      1 < length ⟨1, 2, [7, 0], 1, 1, [5]⟩ →
      index ⟨1, 2, [7, 0], 1, 1, [5]⟩ 1 =
        (⟨1, 2, [7, 0], 1, 1, [5]⟩ : Arr).dynamic_elems[1 -
          (⟨1, 2, [7, 0], 1, 1, [5]⟩ : Arr).static_length]?) :=
  index_spec ⟨1, 2, [7, 0], 1, 1, [5]⟩ 1 (by decide)

/-- Claim C2: for every well-formed array with heap_length > 0, remove_last
pops the last heap element and applies exactly the specified shrink policy:
capacity 0 when the new heap_length is 0; else capacity / 2 when the new
heap_length is at most capacity / 4 and at least 16; else unchanged. -/
theorem remove_last_shrink_policy (a : Arr) (h : WF a)
    (hd : 0 < a.dynamic_length) :
    ∃ v a2, remove_last a = some (v, a2) ∧
      a.dynamic_elems[a.dynamic_length - 1]? = some v ∧
      a2.dynamic_length = a.dynamic_length - 1 ∧
      a2.static_length = a.static_length ∧
      a2.dynamic_capacity =
        (if a.dynamic_length - 1 = 0 then 0
         else if a.dynamic_length - 1 ≤ a.dynamic_capacity / 4 ∧
             DYNAMIC_SIZE_MIN ≤ a.dynamic_length - 1 then
           a.dynamic_capacity / 2
         else a.dynamic_capacity) := by
  obtain ⟨hse, hde, hsl, hdl⟩ := h
  unfold remove_last
  rw [if_neg (by omega), sub1_pos _ hd]
  obtain ⟨w, hwv⟩ := exists_getElem?_some
    (show a.dynamic_length - 1 < a.dynamic_elems.length by omega)
  rw [hwv, Option.some_bind]
  by_cases hz : a.dynamic_length - 1 = 0
  · rw [if_pos hz, resize_dynamic_eq
      { a with dynamic_length := a.dynamic_length - 1 } 0
      (by show a.dynamic_length - 1 ≤ 0; omega), Option.map_some']
    refine ⟨w, _, rfl, rfl, rfl, rfl, ?_⟩
    rw [if_pos hz]
  · rw [if_neg hz]
    by_cases hc : a.dynamic_length - 1 ≤ a.dynamic_capacity / 4 ∧
        DYNAMIC_SIZE_MIN ≤ a.dynamic_length - 1
    · rw [if_pos hc, resize_dynamic_eq
        { a with dynamic_length := a.dynamic_length - 1 }
        (a.dynamic_capacity / 2)
        (by show a.dynamic_length - 1 ≤ a.dynamic_capacity / 2; omega),
        Option.map_some']
      refine ⟨w, _, rfl, rfl, rfl, rfl, ?_⟩
      rw [if_neg hz, if_pos hc]
    · rw [if_neg hc]
      refine ⟨w, _, rfl, rfl, rfl, rfl, ?_⟩
      rw [if_neg hz, if_neg hc]

/-- Witness for C2 at a concrete array: one heap element, capacity 1; the
pop empties the heap segment, so the block is released (capacity 0). -/
theorem remove_last_shrink_policy_witness :
    ∃ v a2, remove_last ⟨1, 1, [42], 0, 0, []⟩ = some (v, a2) ∧
      (⟨1, 1, [42], 0, 0, []⟩ : Arr).dynamic_elems[
        (⟨1, 1, [42], 0, 0, []⟩ : Arr).dynamic_length - 1]? = some v ∧
      a2.dynamic_length =
        (⟨1, 1, [42], 0, 0, []⟩ : Arr).dynamic_length - 1 ∧
      a2.static_length = (⟨1, 1, [42], 0, 0, []⟩ : Arr).static_length ∧
      a2.dynamic_capacity =
        (if (⟨1, 1, [42], 0, 0, []⟩ : Arr).dynamic_length - 1 = 0 then 0
         else if (⟨1, 1, [42], 0, 0, []⟩ : Arr).dynamic_length - 1 ≤
             (⟨1, 1, [42], 0, 0, []⟩ : Arr).dynamic_capacity / 4 ∧
             DYNAMIC_SIZE_MIN ≤
               (⟨1, 1, [42], 0, 0, []⟩ : Arr).dynamic_length - 1 then
           (⟨1, 1, [42], 0, 0, []⟩ : Arr).dynamic_capacity / 2
         else (⟨1, 1, [42], 0, 0, []⟩ : Arr).dynamic_capacity) :=
  remove_last_shrink_policy ⟨1, 1, [42], 0, 0, []⟩ (by decide) (by decide)

/-- Claim C3 (counterexample): from an empty array with inline capacity 0,
reserve(4) followed by four appends reaches a state whose inline and heap
segments are both full with heap_capacity = 4; the next append grows the
heap capacity to 8, not to max(16, 4 * 2) = 16 as the claim states. -/
theorem append_growth_counterexample :
    (((reserve (init 0) 4).bind fun b => runAppends b [1, 2, 3, 4]).map
        fun b => (b.static_length, b.static_capacity, b.dynamic_length,
          b.dynamic_capacity)) = some (0, 0, 4, 4) ∧
    (((reserve (init 0) 4).bind fun b => runAppends b [1, 2, 3, 4]).bind
        fun b => (append b 5).map Arr.dynamic_capacity) = some 8 ∧
    (8 : Nat) ≠ max 16 (4 * 2) := by
  refine ⟨by decide, by decide, by decide⟩

/-- Claim C3 (amended): for every array whose inline and heap segments are
both full, append grows the heap capacity to DYNAMIC_SIZE_MIN = 16 when the
heap capacity is 0 and to heap_capacity * 2 otherwise (this coincides with
max(16, heap_capacity * 2) except when 0 < heap_capacity < 8), then stores
v at the next heap slot, incrementing heap_length. -/
theorem append_growth_doubling (a : Arr) (v : Value)
    (h1 : a.static_length = a.static_capacity)
    (h2 : a.dynamic_length = a.dynamic_capacity) :
    ∃ a2, append a v = some a2 ∧
      a2.dynamic_capacity =
        (if a.dynamic_capacity = 0 then DYNAMIC_SIZE_MIN
         else a.dynamic_capacity * 2) ∧
      a2.dynamic_length = a.dynamic_length + 1 ∧
      a2.dynamic_elems[a.dynamic_length]? = some v := by
  unfold append
  rw [if_neg (by omega), if_neg (by omega)]
  by_cases h3 : a.dynamic_capacity = 0
  · rw [if_pos h3, resize_dynamic_eq a DYNAMIC_SIZE_MIN
      (by unfold DYNAMIC_SIZE_MIN; omega), Option.map_some']
    refine ⟨_, rfl, ?_, rfl, ?_⟩
    · rw [if_pos h3]
    · show ((reallocList a.dynamic_elems DYNAMIC_SIZE_MIN).set
          a.dynamic_length v)[a.dynamic_length]? = some v
      apply List.getElem?_set_self
      rw [length_reallocList]
      unfold DYNAMIC_SIZE_MIN
      omega
  · rw [if_neg h3, resize_dynamic_eq a (a.dynamic_capacity * 2) (by omega),
      Option.map_some']
    refine ⟨_, rfl, ?_, rfl, ?_⟩
    · rw [if_neg h3]
    · show ((reallocList a.dynamic_elems (a.dynamic_capacity * 2)).set
          a.dynamic_length v)[a.dynamic_length]? = some v
      apply List.getElem?_set_self
      rw [length_reallocList]
      omega

/-- Witness for the amended C3 at the empty array with inline capacity 0:
both segments are (vacuously) full and the first heap allocation has
capacity DYNAMIC_SIZE_MIN = 16. -/
theorem append_growth_doubling_witness :
    ∃ a2, append (init 0) 9 = some a2 ∧
      a2.dynamic_capacity =
        (if (init 0).dynamic_capacity = 0 then DYNAMIC_SIZE_MIN
         else (init 0).dynamic_capacity * 2) ∧
      a2.dynamic_length = (init 0).dynamic_length + 1 ∧
      a2.dynamic_elems[(init 0).dynamic_length]? = some 9 :=
  append_growth_doubling (init 0) 9 rfl rfl

/-- Claim C4 (the code at the failing input): remove_last on a freshly
initialized array of inline capacity 4 — length 0 — does not report an
Empty condition; the source executes static_elems[--static_length], whose
size_t decrement wraps 0 to sub1 0 = 2^64 - 1 and whose read is out of
bounds (modelled none). -/
theorem remove_last_empty_underflow :
    remove_last (init 4) = none ∧ sub1 0 = 2 ^ 64 - 1 := by
  refine ⟨by decide, by decide⟩

/-- Claim C5 (the code at the failing input): normalize on an array holding
one inline element aborts, because part_001's resize_dynamic asserts
newlen <= dynamic_length — here 1 <= 0 — although normalize is documented
to move all elements into contiguous memory; the resize helper of
src/array.c (whose assert is reversed) would accept the very same call. -/
theorem normalize_assert_fails :
    normalize ⟨0, 0, [], 1, 1, [7]⟩ = none ∧
      resize_dynamic ⟨0, 0, [], 1, 1, [7]⟩
        (length ⟨0, 0, [], 1, 1, [7]⟩) ≠ none := by
  refine ⟨by decide, by decide⟩

/-- Claim C6: from any freshly initialized array, any sequence of N appends
followed by N removals (any mix of remove_last and unordered_remove, each
succeeding — which in particular forces every unordered_remove index to be
in bounds) ends with length() = 0, and the multiset of appended values
equals the multiset of removed values: no element is lost or duplicated. -/
theorem append_remove_multiset (sc : Nat) (vs : List Value)
    (ops : List RemOp) (a1 a2 : Arr) (rs : List Value)
    (hsc : sc < W) (hlen : ops.length = vs.length)
    (h1 : runAppends (init sc) vs = some a1)
    (h2 : runRemovals a1 ops = some (a2, rs)) :
    length a2 = 0 ∧ Multiset.ofList vs = Multiset.ofList rs := by
  obtain ⟨a1x, e1, hI1, hT1⟩ := runAppends_spec vs (init sc) (inv_init sc hsc)
  rw [h1, Option.some.injEq] at e1
  subst e1
  rw [toList_init, List.nil_append] at hT1
  obtain ⟨hI2, hM, hL⟩ := runRemovals_spec ops a1 a2 rs hI1 h2
  rw [hT1] at hM hL
  have hz : (toList a2).length = 0 := by omega
  have hnil : toList a2 = [] := List.eq_nil_of_length_eq_zero hz
  constructor
  · have := toList_length a2 hI2
    omega
  · rw [hnil, show Multiset.ofList ([] : List Value) = 0 from rfl,
      add_zero] at hM
    exact hM

/-- Witness for C6: inline capacity 1; append 10, 20, 30, then
unordered_remove(1), remove_last, remove_last.  The removed values are
[20, 30, 10], a permutation of the appended ones, and the final length
is 0. -/
theorem append_remove_multiset_witness :
    length (⟨0, 0, [], 0, 1, [10]⟩ : Arr) = 0 ∧
      Multiset.ofList [10, 20, 30] = Multiset.ofList [20, 30, 10] :=
  append_remove_multiset 1 [10, 20, 30]
    [RemOp.unord 1, RemOp.last, RemOp.last]
    ⟨2, 16, [20, 30, 0, 0, 0, 0, 0, 0, 0, 0, 0, 0, 0, 0, 0, 0], 1, 1, [10]⟩
    ⟨0, 0, [], 0, 1, [10]⟩ [20, 30, 10]
    (by decide) (by decide) (by decide) (by decide)

/-- Claim C7: when the original owns a heap block, pcopy moves the copy's
heap pointer to the freshly malloc'ed address — an allocation distinct from
the original's block — holding the same contents, and it invokes the
per-element post-copy hook exactly once per logical element of the copy,
inline segment first, then heap segment, in order (the second component of
pcopy is the ordered list of hook invocations).  The hypothesis states that
malloc returns an address different from the live block's. -/
theorem pcopy_spec (a : PArr) (fresh : Nat)
    (hne : fresh ≠ a.dynamic_elems_ptr) :
    (a.dynamic_elems_ptr ≠ 0 →
      (pcopy a fresh).1.dynamic_elems_ptr = fresh ∧
      (pcopy a fresh).1.dynamic_elems_ptr ≠ a.dynamic_elems_ptr ∧
      (pcopy a fresh).1.dynamic_elems = a.dynamic_elems) ∧
    (pcopy a fresh).2 =
      a.static_elems.take a.static_length ++
        a.dynamic_elems.take a.dynamic_length := by
  unfold pcopy
  by_cases hp : a.dynamic_elems_ptr ≠ 0
  · rw [if_pos hp]
    exact ⟨fun _ => ⟨rfl, hne, rfl⟩, rfl⟩
  · rw [if_neg hp]
    exact ⟨fun hcon => absurd hcon hp, rfl⟩

/-- Witness for C7 at a concrete array (heap block at address 5 holding
[9, junk] with one live element, inline [3]): the copy's block address
becomes 77 and the hook trace is [3, 9]. -/
theorem pcopy_spec_witness :
    ((⟨1, 2, 5, [9, 0], 1, 1, [3]⟩ : PArr).dynamic_elems_ptr ≠ 0 →
      (pcopy ⟨1, 2, 5, [9, 0], 1, 1, [3]⟩ 77).1.dynamic_elems_ptr = 77 ∧
      (pcopy ⟨1, 2, 5, [9, 0], 1, 1, [3]⟩ 77).1.dynamic_elems_ptr ≠
        (⟨1, 2, 5, [9, 0], 1, 1, [3]⟩ : PArr).dynamic_elems_ptr ∧
      (pcopy ⟨1, 2, 5, [9, 0], 1, 1, [3]⟩ 77).1.dynamic_elems =
        (⟨1, 2, 5, [9, 0], 1, 1, [3]⟩ : PArr).dynamic_elems) ∧
    (pcopy ⟨1, 2, 5, [9, 0], 1, 1, [3]⟩ 77).2 =
      (⟨1, 2, 5, [9, 0], 1, 1, [3]⟩ : PArr).static_elems.take
          (⟨1, 2, 5, [9, 0], 1, 1, [3]⟩ : PArr).static_length ++
        (⟨1, 2, 5, [9, 0], 1, 1, [3]⟩ : PArr).dynamic_elems.take
          (⟨1, 2, 5, [9, 0], 1, 1, [3]⟩ : PArr).dynamic_length :=
  pcopy_spec ⟨1, 2, 5, [9, 0], 1, 1, [3]⟩ 77 (by decide)

/-- Claim C8 (counterexample): normalize on the freshly initialized array of
inline capacity 1 succeeds (nothing to move), yet the very next append
stores its value into the inline segment — static_length becomes 1 while
the heap segment stays empty — so the container does re-populate the
inline segment by itself after normalization. -/
theorem normalize_append_counterexample :
    ((normalize (init 1)).bind fun b => append b 7).map
        (fun c => (c.static_length, c.dynamic_length)) = some (1, 0) := by
  decide

/-- Claim C8 (amended): after a successful normalize on an array with
inline_capacity > 0, the next append stores its value into the inline
segment, re-populating it: inline_length becomes 1 and the heap segment is
untouched.  Appends keep using the heap after normalization only when
inline_capacity = 0. -/
theorem normalize_append_refills_inline (a a2 : Arr) (v : Value)
    (hsc : 0 < a.static_capacity) (hn : normalize a = some a2) :
    ∃ a3, append a2 v = some a3 ∧ a3.static_length = 1 ∧
      a3.dynamic_length = a2.dynamic_length ∧
      a3.dynamic_elems = a2.dynamic_elems := by
  obtain ⟨hs0, hscap, -⟩ := normalize_fields a a2 hn
  unfold append
  rw [if_pos (by omega)]
  refine ⟨_, rfl, ?_, rfl, rfl⟩
  rw [hs0]

/-- Witness for the amended C8: the array normalize (init 1) evaluates to;
appending 7 to it puts the value inline. -/
theorem normalize_append_refills_inline_witness :
    ∃ a3, append ⟨0, 0, [], 0, 1, [0]⟩ 7 = some a3 ∧
      a3.static_length = 1 ∧
      a3.dynamic_length = (⟨0, 0, [], 0, 1, [0]⟩ : Arr).dynamic_length ∧
      a3.dynamic_elems = (⟨0, 0, [], 0, 1, [0]⟩ : Arr).dynamic_elems :=
  normalize_append_refills_inline (init 1) ⟨0, 0, [], 0, 1, [0]⟩ 7
    (by decide) (by decide)

/-- Claim C9: on every reachable array state, each call the code makes to
the heap-resize helper (append's growth step, remove_last's two shrink
steps, reserve) requests a new capacity of at least the current heap
length, so the helper's bounds assertion holds and no live heap element is
dropped: append never aborts, remove_last never aborts while the heap
segment is non-empty, and reserve never aborts. -/
theorem resize_calls_safe (a : Arr) (h : Reachable a) :
    (∀ v, append a v ≠ none) ∧
    (0 < a.dynamic_length → remove_last a ≠ none) ∧
    (∀ c, reserve a c ≠ none) := by
  have hI := reachable_inv a h
  refine ⟨?_, ?_, ?_⟩
  · intro v
    obtain ⟨a2, e, -, -⟩ := append_spec a v hI
    rw [e]
    simp
  · intro hd
    obtain ⟨p, e⟩ := remove_last_total a hI hd
    rw [e]
    simp
  · intro c
    obtain ⟨a2, e, -, -, -, -, -, -, -⟩ := reserve_spec a c hI
    rw [e]
    simp

/-- Witness for C9 at the reachable state init 0. -/
theorem resize_calls_safe_witness :
    (∀ v, append (init 0) v ≠ none) ∧
    (0 < (init 0).dynamic_length → remove_last (init 0) ≠ none) ∧
    (∀ c, reserve (init 0) c ≠ none) :=
  resize_calls_safe (init 0) (Reachable.ofInit 0 (by decide))

/-- Claim C10: reserve(a, cap) leaves length(a) and the value at every
logical index unchanged, modifying only the heap capacity and heap block,
and it is a complete no-op whenever cap <= length(a) or
cap <= inline_capacity.  (The hypothesis Inv is the code's reachable-state
invariant, including the spec's fill-order invariant 5.) -/
theorem reserve_frame (a : Arr) (c : Nat) (h : Inv a) :
    ∃ a2, reserve a c = some a2 ∧
      length a2 = length a ∧
      (∀ i, index a2 i = index a i) ∧
      a2.static_length = a.static_length ∧
      a2.dynamic_length = a.dynamic_length ∧
      a2.static_capacity = a.static_capacity ∧
      a2.static_elems = a.static_elems ∧
      ((c ≤ length a ∨ c ≤ a.static_capacity) → a2 = a) := by
  obtain ⟨a2, e, hI, h3, h4, h5c, h6, h7, h8⟩ := reserve_spec a c h
  refine ⟨a2, e, ?_, h7, h3, h4, h5c, h6, h8⟩
  show a2.static_length + a2.dynamic_length =
      a.static_length + a.dynamic_length
  omega

/-- Witness for C10: reserving capacity 5 on init 2 (inline capacity 2). -/
theorem reserve_frame_witness :
    ∃ a2, reserve (init 2) 5 = some a2 ∧
      length a2 = length (init 2) ∧
      (∀ i, index a2 i = index (init 2) i) ∧
      a2.static_length = (init 2).static_length ∧
      a2.dynamic_length = (init 2).dynamic_length ∧
      a2.static_capacity = (init 2).static_capacity ∧
      a2.static_elems = (init 2).static_elems ∧
      ((5 ≤ length (init 2) ∨ 5 ≤ (init 2).static_capacity) →
        a2 = init 2) :=
  reserve_frame (init 2) 5 (by decide)

end NewLang
